import Mathlib

/-!
Verification of the `arraydeque` collection library: a circular-buffer
double-ended queue (`ArrayDeque` / `Deque`) and a binary-heap priority queue
(`PriorityQueue`).

The definitions below are a shallow embedding of the library's code:
 * the deque's backing store `buffer` (a JS array of `capacity` slots, each
   holding a value or `undefined`) is a `List (Option α)` of length `capacity`;
   the JS `undefined` sentinel is `none`;
 * JS array reads `buffer[i]` become `List.getD i none`, writes become
   `List.set`;
 * the heap's backing array is a `List α`; reads `heap[i]` (always in
   bounds in the code) become `nth = List.getD i default`;
 * the numeric comparator returns an `Int`;
 * the only fatal failure (invalid constructor capacity) is an
   `Except.error`; every in-bounds query that can return `undefined`
   returns an `Option`.
-/

/-! ### ArrayDeque: data model -/

/-- Circular-buffer deque state: fields mirror the class fields
`buffer`, `head`, `tail`, `capacity`, `count` of `ArrayDeque<T>`. -/
structure ArrayDeque (α : Type) where
  buffer : List (Option α)
  head : Nat
  tail : Nat
  capacity : Nat
  count : Nat

namespace ArrayDeque

variable {α : Type}

/-- Read of a backing-store slot: `this.buffer[i]` (`undefined` is `none`). -/
def bufGet (d : ArrayDeque α) (i : Nat) : Option α := d.buffer.getD i none

/-- `get size()` accessor. -/
def size (d : ArrayDeque α) : Nat := d.count

/-- `isEmpty()`. -/
def isEmpty (d : ArrayDeque α) : Bool := d.count == 0

/-- Constructor taking a requested capacity (the `ArrayDeque` constructor and
the capacity branch of the `Deque` constructor): capacities below 1 throw
`Error("Initial capacity must be at least 1")`, otherwise the capacity
becomes `Math.max(initialCapacity, 16)` and the buffer is a fresh array of
that many empty slots. -/
def fromCapacity (initialCapacity : Int) : Except String (ArrayDeque α) :=
  if initialCapacity < 1 then
    .error "Initial capacity must be at least 1"
  else
    let cap := max initialCapacity.toNat 16
    .ok { buffer := List.replicate cap none
          head := 0
          tail := 0
          capacity := cap
          count := 0 }

/-- Element branch of the `Deque` constructor: capacity
`Math.max(16, elements.length * 2)`, elements linearized into slots
`0 .. len-1`, `head = 0`, `tail = count = len`. -/
def fromElements (elements : List α) : ArrayDeque α :=
  let cap := max 16 (elements.length * 2)
  { buffer := elements.map some ++ List.replicate (cap - elements.length) none
    head := 0
    tail := elements.length
    capacity := cap
    count := elements.length }

/-- `clear()`: fresh 16-slot buffer, all indices reset, capacity 16. -/
def clear (_d : ArrayDeque α) : ArrayDeque α :=
  { buffer := List.replicate 16 none
    head := 0
    tail := 0
    capacity := 16
    count := 0 }

/-- `grow()`: double the capacity, copy the `count` logical elements from
`(head + i) % capacity` to dense positions `0 .. count-1`, reset
`head = 0`, `tail = count`. -/
def grow (d : ArrayDeque α) : ArrayDeque α :=
  let newCapacity := d.capacity * 2
  { buffer :=
      (List.range d.count).map (fun i => d.bufGet ((d.head + i) % d.capacity))
        ++ List.replicate (newCapacity - d.count) none
    head := 0
    tail := d.count
    capacity := newCapacity
    count := d.count }

/-- `pushFront(value)`: grow when full, then move `head` back one slot
(mod capacity) and write the value there. -/
def pushFront (d : ArrayDeque α) (value : α) : ArrayDeque α :=
  let d := if d.count = d.capacity then d.grow else d
  let h := (d.head + d.capacity - 1) % d.capacity
  { d with buffer := d.buffer.set h (some value)
           head := h
           count := d.count + 1 }

/-- `pushBack(value)`: grow when full, then write at `tail` and move
`tail` forward one slot (mod capacity). -/
def pushBack (d : ArrayDeque α) (value : α) : ArrayDeque α :=
  let d := if d.count = d.capacity then d.grow else d
  { d with buffer := d.buffer.set d.tail (some value)
           tail := (d.tail + 1) % d.capacity
           count := d.count + 1 }

/-- `popFront()`: `undefined` when empty; otherwise read the slot at
`head`, clear it (help GC), advance `head` mod capacity. -/
def popFront (d : ArrayDeque α) : Option α × ArrayDeque α :=
  if d.count = 0 then (none, d)
  else
    (d.bufGet d.head,
     { d with buffer := d.buffer.set d.head none
              head := (d.head + 1) % d.capacity
              count := d.count - 1 })

/-- `popBack()`: `undefined` when empty; otherwise retreat `tail` mod
capacity, read that slot and clear it. -/
def popBack (d : ArrayDeque α) : Option α × ArrayDeque α :=
  if d.count = 0 then (none, d)
  else
    let t := (d.tail + d.capacity - 1) % d.capacity
    (d.bufGet t,
     { d with buffer := d.buffer.set t none
              tail := t
              count := d.count - 1 })

/-- `peekFront()`. -/
def peekFront (d : ArrayDeque α) : Option α :=
  if d.count = 0 then none else d.bufGet d.head

/-- `peekBack()`. -/
def peekBack (d : ArrayDeque α) : Option α :=
  if d.count = 0 then none
  else d.bufGet ((d.tail + d.capacity - 1) % d.capacity)

/-- `at(index)`: `undefined` for `index < 0` or `index >= count`, else the
slot at `(head + index) % capacity`.  The JS index may be negative, so the
argument is an `Int`. -/
def atIdx (d : ArrayDeque α) (index : Int) : Option α :=
  if index < 0 ∨ (d.count : Int) ≤ index then none
  else d.bufGet ((d.head + index.toNat) % d.capacity)

/-- `toArray()`: the logical front-to-back sequence, reading slot
`(head + i) % capacity` for `i = 0 .. count-1`.  (The JS code pushes
`this.buffer[index]!`; a slot that unexpectedly held `undefined` would be
pushed as-is, so elements stay `Option α`.) -/
def toArray (d : ArrayDeque α) : List (Option α) :=
  (List.range d.count).map (fun i => d.bufGet ((d.head + i) % d.capacity))

/-- Well-formedness of a deque state: established by both constructors and
preserved by every operation.  `tail` is determined by `head`, `count` and
`capacity`. -/
def WF (d : ArrayDeque α) : Prop :=
  d.buffer.length = d.capacity ∧
  d.head < d.capacity ∧
  d.count ≤ d.capacity ∧
  d.tail = (d.head + d.count) % d.capacity ∧
  1 ≤ d.capacity

instance (d : ArrayDeque α) : Decidable d.WF := by
  unfold WF; infer_instance

end ArrayDeque

/-! ### PriorityQueue: data model

The heap state is the backing array `heap : List α` together with the
configured comparator `compare : α → α → Int`.  All methods take the
comparator as an explicit first argument.  JS array reads `heap[i]` are
`nth` (`List.getD i default`); they are always within bounds in the code. -/

/-- In-bounds JS array read `l[i]`. -/
def nth {α : Type} [Inhabited α] (l : List α) (i : Nat) : α := l.getD i default

/-- `swap(i, j)`: `[this.heap[i], this.heap[j]] = [this.heap[j], this.heap[i]]`
(both slots are read before either is written). -/
def swap {α : Type} [Inhabited α] (l : List α) (i j : Nat) : List α :=
  (l.set i (nth l j)).set j (nth l i)

/-- `getParentIndex(index) = Math.floor((index - 1) / 2)` for positive
`index`; at `index = 0` the JS value is `-1` and every caller guards
against it, so only the positive case goes through this function. -/
def parentIdx (i : Nat) : Nat := (i - 1) / 2

/-- Default comparator of a min-heap: `(a, b) => a - b`. -/
def minComparator (a b : Int) : Int := a - b

/-- Default comparator of a max-heap: `(a, b) => b - a`. -/
def maxComparator (a b : Int) : Int := b - a

namespace PriorityQueue

variable {α : Type} [Inhabited α]

/-- `bubbleUp(index)`: while not at the root, swap with the parent as long
as the element strictly outranks it. -/
def bubbleUp (cmp : α → α → Int) (heap : List α) (index : Nat) : List α :=
  if h : 0 < index then
    if cmp (nth heap index) (nth heap (parentIdx index)) < 0 then
      bubbleUp cmp (swap heap index (parentIdx index)) (parentIdx index)
    else heap
  else heap
termination_by index
decreasing_by
  exact Nat.lt_of_le_of_lt (Nat.div_le_self _ _) (Nat.sub_lt h one_pos)

/-- Value of `targetIdx` in a `bubbleDown` iteration after the left-child
test: the left child when in bounds and strictly outranking, else `index`. -/
def bdT1 (cmp : α → α → Int) (heap : List α) (index : Nat) : Nat :=
  if 2 * index + 1 < heap.length ∧
      cmp (nth heap (2 * index + 1)) (nth heap index) < 0
  then 2 * index + 1 else index

/-- Final value of `targetIdx` in a `bubbleDown` iteration: the right child
when in bounds and strictly outranking the running candidate `bdT1`. -/
def bdTarget (cmp : α → α → Int) (heap : List α) (index : Nat) : Nat :=
  if 2 * index + 2 < heap.length ∧
      cmp (nth heap (2 * index + 2)) (nth heap (bdT1 cmp heap index)) < 0
  then 2 * index + 2 else bdT1 cmp heap index

/-- `bubbleDown(index)`: repeatedly swap with the strictly-outranking child
chosen by `bdTarget` until no child outranks the current node. -/
def bubbleDown (cmp : α → α → Int) (heap : List α) (index : Nat) : List α :=
  if h : bdTarget cmp heap index = index then heap
  else
    bubbleDown cmp (swap heap index (bdTarget cmp heap index))
      (bdTarget cmp heap index)
termination_by heap.length - index
decreasing_by
  have h1 : bdT1 cmp heap index = index ∨
      (bdT1 cmp heap index = 2 * index + 1 ∧ 2 * index + 1 < heap.length) := by
    unfold bdT1
    split_ifs with hc
    · exact Or.inr ⟨rfl, hc.1⟩
    · exact Or.inl rfl
  have h2 : bdTarget cmp heap index = bdT1 cmp heap index ∨
      (bdTarget cmp heap index = 2 * index + 2 ∧
        2 * index + 2 < heap.length) := by
    unfold bdTarget
    split_ifs with hc
    · exact Or.inr ⟨rfl, hc.1⟩
    · exact Or.inl rfl
  have hs : (swap heap index (bdTarget cmp heap index)).length = heap.length := by
    simp [swap]
  rw [hs]
  rcases h2 with h2 | ⟨h2, hlt2⟩ <;> rcases h1 with h1 | ⟨h1, hlt1⟩ <;> omega

/-- `push(value)`: append, then sift up from the last position.  (The JS
method also returns the new size, which is the length of the result.) -/
def push (cmp : α → α → Int) (heap : List α) (value : α) : List α :=
  bubbleUp cmp (heap ++ [value]) heap.length

/-- `pop()`: `undefined` when empty; the sole element when of size one;
otherwise move the last element to the root, shrink, sift down, and
return the prior root. -/
def pop (cmp : α → α → Int) (heap : List α) : Option α × List α :=
  if heap.length = 0 then (none, heap)
  else if heap.length = 1 then (some (nth heap 0), [])
  else
    (some (nth heap 0),
     bubbleDown cmp ((heap.dropLast).set 0 (nth heap (heap.length - 1))) 0)

/-- `peek()`: `this.heap[0]`, which is `undefined` exactly when empty. -/
def peek (heap : List α) : Option α := heap.head?

/-- First index holding `value` (`this.heap.indexOf(value)`), `none` when
absent. -/
def findIndex {β : Type} [DecidableEq β] : List β → β → Option Nat
  | [], _ => none
  | a :: l, value => if a = value then some 0 else (findIndex l value).map (· + 1)

/-- `contains(value)`: `this.heap.includes(value)` — value equality scan. -/
def contains {β : Type} [DecidableEq β] (heap : List β) (value : β) : Bool :=
  decide (value ∈ heap)

/-- `remove(value)`: locate the first equal element; absent ⇒ `false` with
no mutation; last position ⇒ truncate; otherwise move the last element
into the hole and sift it up when it strictly outranks its new parent
(`parentIdx >= 0`, i.e. `0 < index`, guards the root case), else sift it
down. -/
def remove [DecidableEq α] (cmp : α → α → Int) (heap : List α) (value : α) :
    Bool × List α :=
  match findIndex heap value with
  | none => (false, heap)
  | some index =>
    if index = heap.length - 1 then (true, heap.dropLast)
    else
      let h2 := (heap.dropLast).set index (nth heap (heap.length - 1))
      if 0 < index ∧ cmp (nth h2 index) (nth h2 (parentIdx index)) < 0 then
        (true, bubbleUp cmp h2 index)
      else
        (true, bubbleDown cmp h2 index)

/-- `replace(value)`: on an empty queue, push and return `undefined`;
otherwise swap the root value, sift down, return the prior root. -/
def replace (cmp : α → α → Int) (heap : List α) (value : α) :
    Option α × List α :=
  if heap.length = 0 then (none, push cmp heap value)
  else (some (nth heap 0), bubbleDown cmp (heap.set 0 value) 0)

/-- `pushPop(value)`: return the value unchanged when the queue is empty or
the value strictly outranks the root; otherwise delegate to `replace`. -/
def pushPop (cmp : α → α → Int) (heap : List α) (value : α) :
    Option α × List α :=
  if heap.length = 0 ∨ cmp value (nth heap 0) < 0 then (some value, heap)
  else replace cmp heap value

/-- The countdown loop of `heapify`: sift down indices `n-1, n-2, …, 0`. -/
def heapifyFrom (cmp : α → α → Int) : List α → Nat → List α
  | heap, 0 => heap
  | heap, n + 1 => heapifyFrom cmp (bubbleDown cmp heap n) n

/-- `heapify()`: sift down every index from `Math.floor(length / 2) - 1`
down to `0`. -/
def heapify (cmp : α → α → Int) (heap : List α) : List α :=
  heapifyFrom cmp heap (heap.length / 2)

/-- `merge(other)`: append every element yielded by iterating the other
queue (raw heap order), then `heapify()`. -/
def merge (cmp : α → α → Int) (heap other : List α) : List α :=
  heapify cmp (heap ++ other)

/-- The heap invariant: no child strictly outranks its parent —
`compare(heap[i], heap[parent(i)]) >= 0` for every non-root index. -/
def IsHeap (cmp : α → α → Int) (l : List α) : Prop :=
  ∀ i, 0 < i → i < l.length → 0 ≤ cmp (nth l i) (nth l (parentIdx i))

/-- The `while (this.heap.length > 0)` draining loop of `toSortedArray()`,
written with a fuel argument: each `pop()` on a non-empty heap shortens it
by exactly one, so fuel `heap.length` runs the loop to completion. -/
def drainAux (cmp : α → α → Int) : Nat → List α → List α
  | 0, _ => []
  | n + 1, heap =>
    if heap.length = 0 then []
    else nth heap 0 :: drainAux cmp n (pop cmp heap).2

/-- Repeatedly `pop()` until empty, collecting the returned values in
order (the observable output of `toSortedArray()`). -/
def drain (cmp : α → α → Int) (heap : List α) : List α :=
  drainAux cmp heap.length heap

end PriorityQueue

/-! ### Claim-harness definitions -/

namespace ArrayDeque

variable {α : Type}

/-- A sequence of `pushBack` calls, in order. -/
def pushBackList (d : ArrayDeque α) (vs : List α) : ArrayDeque α :=
  vs.foldl pushBack d

/-- `n` successive `popFront()` calls, collecting the returned values. -/
def popFrontN : ArrayDeque α → Nat → List (Option α) × ArrayDeque α
  | d, 0 => ([], d)
  | d, n + 1 =>
    let p := popFront d
    let q := popFrontN p.2 n
    (p.1 :: q.1, q.2)

end ArrayDeque

namespace PriorityQueue

variable {α : Type} [Inhabited α]

/-- Partial heap invariant used for `heapify`: the invariant restricted to
edges whose parent index is at least `K`. -/
def HeapFrom (cmp : α → α → Int) (l : List α) (K : Nat) : Prop :=
  ∀ j, 0 < j → j < l.length → K ≤ parentIdx j →
    0 ≤ cmp (nth l j) (nth l (parentIdx j))

/-- Sign-antisymmetry of a comparator: `cmp a b <= 0` exactly when
`0 <= cmp b a`.  Holds for the default numeric comparators and for every
comparator describing a total preorder. -/
def CmpAntisymm (cmp : α → α → Int) : Prop :=
  ∀ a b, cmp a b ≤ 0 ↔ 0 ≤ cmp b a

/-- Transitivity of the non-strict order induced by a comparator. -/
def CmpTrans (cmp : α → α → Int) : Prop :=
  ∀ a b c, cmp a b ≤ 0 → cmp b c ≤ 0 → cmp a c ≤ 0

end PriorityQueue

/-! ### List auxiliary lemmas -/

theorem getD_set_ne {α : Type} (l : List α) (i j : Nat) (x d : α) (h : i ≠ j) :
    (l.set i x).getD j d = l.getD j d := by
  simp [List.getD_eq_getElem?_getD, List.getElem?_set_ne h]

theorem getD_set_self {α : Type} (l : List α) (i : Nat) (x d : α)
    (h : i < l.length) : (l.set i x).getD i d = x := by
  simp [List.getD_eq_getElem?_getD, List.getElem?_set_self, h]

theorem getD_append_left {α : Type} (l l2 : List α) (i : Nat) (d : α)
    (h : i < l.length) : (l ++ l2).getD i d = l.getD i d := by
  simp [List.getD_eq_getElem?_getD, List.getElem?_append_left h]

theorem getD_dropLast {α : Type} (l : List α) (i : Nat) (d : α)
    (h : i < l.length - 1) : l.dropLast.getD i d = l.getD i d := by
  simp only [List.getD_eq_getElem?_getD]
  rw [List.getElem?_dropLast]
  simp [h]

theorem getD_range_map {α : Type} (n k : Nat) (f : Nat → α) (d : α) (h : k < n) :
    ((List.range n).map f).getD k d = f k := by
  simp [List.getD_eq_getElem?_getD, List.getElem?_map, List.getElem?_range h]

theorem getD_mem {α : Type} (l : List α) (n : Nat) (d : α) (h : n < l.length) :
    l.getD n d ∈ l := by
  rw [List.getD_eq_getElem?_getD]
  simp [List.getElem?_eq_getElem h]

theorem getD_length_le {α : Type} (l : List α) (n : Nat) (d : α)
    (h : l.length ≤ n) : l.getD n d = d := by
  simp [List.getD_eq_getElem?_getD, List.getElem?_eq_none h]

/-- Cancellation of circular-index arithmetic: logical positions below the
capacity map to distinct slots. -/
theorem circIdx_inj {cap h i j : Nat} (hi : i < cap) (hj : j < cap)
    (he : (h + i) % cap = (h + j) % cap) : i = j := by
  have hm : Nat.ModEq cap i j := Nat.ModEq.add_left_cancel' h he
  have : i % cap = j % cap := hm
  rwa [Nat.mod_eq_of_lt hi, Nat.mod_eq_of_lt hj] at this

/-! ### ArrayDeque lemmas and claims -/

namespace ArrayDeque

variable {α : Type}

theorem toArray_length (d : ArrayDeque α) : (toArray d).length = d.count := by
  simp [toArray]

theorem toArray_getD (d : ArrayDeque α) (i : Nat) (h : i < d.count) :
    (toArray d).getD i none = d.bufGet ((d.head + i) % d.capacity) := by
  unfold toArray
  exact getD_range_map _ _ _ _ h

theorem count_grow (d : ArrayDeque α) : d.grow.count = d.count := rfl

theorem capacity_grow (d : ArrayDeque α) : d.grow.capacity = d.capacity * 2 := rfl

theorem head_grow (d : ArrayDeque α) : d.grow.head = 0 := rfl

theorem tail_grow (d : ArrayDeque α) : d.grow.tail = d.count := rfl

theorem buffer_grow (d : ArrayDeque α) :
    d.grow.buffer = (List.range d.count).map
        (fun i => d.bufGet ((d.head + i) % d.capacity))
      ++ List.replicate (d.capacity * 2 - d.count) none := rfl

theorem WF_grow (d : ArrayDeque α) (h : WF d) : WF d.grow := by
  obtain ⟨hbuf, hhead, hcount, htail, hcap⟩ := h
  refine ⟨?_, ?_, ?_, ?_, ?_⟩
  · rw [buffer_grow, capacity_grow]; simp; omega
  · rw [head_grow, capacity_grow]; omega
  · rw [count_grow, capacity_grow]; omega
  · rw [tail_grow, count_grow, head_grow, capacity_grow, Nat.zero_add,
      Nat.mod_eq_of_lt (by omega)]
  · rw [capacity_grow]; omega

theorem toArray_grow (d : ArrayDeque α) (h : WF d) :
    toArray d.grow = toArray d := by
  obtain ⟨hbuf, hhead, hcount, htail, hcap⟩ := h
  unfold toArray
  rw [count_grow]
  apply List.map_congr_left
  intro i hi
  rw [List.mem_range] at hi
  rw [show d.grow.bufGet ((d.grow.head + i) % d.grow.capacity)
        = d.grow.buffer.getD ((0 + i) % (d.capacity * 2)) none from rfl]
  rw [Nat.zero_add, Nat.mod_eq_of_lt (by omega), buffer_grow]
  rw [getD_append_left _ _ _ _ (by simp; omega)]
  rw [getD_range_map _ _ _ _ hi]

theorem pushBack_not_full (d : ArrayDeque α) (v : α) (hc : d.count ≠ d.capacity) :
    pushBack d v = { d with buffer := d.buffer.set d.tail (some v)
                            tail := (d.tail + 1) % d.capacity
                            count := d.count + 1 } := by
  simp [pushBack, hc]

theorem pushBack_full (d : ArrayDeque α) (v : α) (hc : d.count = d.capacity) :
    pushBack d v =
      { d.grow with buffer := d.grow.buffer.set d.grow.tail (some v)
                    tail := (d.grow.tail + 1) % d.grow.capacity
                    count := d.grow.count + 1 } := by
  simp [pushBack, hc]

theorem toArray_set_tail (d : ArrayDeque α) (v : α) (hw : WF d)
    (hc : d.count < d.capacity) :
    toArray { d with buffer := d.buffer.set d.tail (some v)
                     tail := (d.tail + 1) % d.capacity
                     count := d.count + 1 } = toArray d ++ [some v] ∧
    WF { d with buffer := d.buffer.set d.tail (some v)
                tail := (d.tail + 1) % d.capacity
                count := d.count + 1 } := by
  obtain ⟨hbuf, hhead, hcount, htail, hcap⟩ := hw
  have htlt : d.tail < d.capacity := by
    rw [htail]; exact Nat.mod_lt _ (by omega)
  constructor
  · unfold toArray
    show (List.range (d.count + 1)).map
        (fun i => (d.buffer.set d.tail (some v)).getD ((d.head + i) % d.capacity) none)
      = _
    rw [List.range_succ, List.map_append]
    congr 1
    · apply List.map_congr_left
      intro i hi
      rw [List.mem_range] at hi
      have hne : d.tail ≠ (d.head + i) % d.capacity := by
        rw [htail]
        intro he
        exact absurd (circIdx_inj (Nat.lt_of_lt_of_le hc le_rfl) (by omega) he)
          (by omega)
      rw [show ∀ x : Option α, (d.buffer.set d.tail x).getD ((d.head + i) % d.capacity) none
            = d.buffer.getD ((d.head + i) % d.capacity) none
          from fun x => getD_set_ne _ _ _ _ _ hne]
      rfl
    · show [(d.buffer.set d.tail (some v)).getD ((d.head + d.count) % d.capacity) none] = _
      rw [← htail, getD_set_self _ _ _ _ (by rw [hbuf]; exact htlt)]
  · refine ⟨by simp [hbuf], hhead, by show d.count + 1 ≤ d.capacity; omega, ?_, hcap⟩
    show (d.tail + 1) % d.capacity = (d.head + (d.count + 1)) % d.capacity
    rw [htail, Nat.mod_add_mod, ← Nat.add_assoc]

theorem toArray_pushBack (d : ArrayDeque α) (v : α) (hw : WF d) :
    toArray (pushBack d v) = toArray d ++ [some v] ∧ WF (pushBack d v) := by
  by_cases hc : d.count = d.capacity
  · rw [pushBack_full d v hc]
    have hg := WF_grow d hw
    have hlt : d.grow.count < d.grow.capacity := by
      rw [count_grow, capacity_grow]
      have := hw.2.2.2.2
      omega
    have := toArray_set_tail d.grow v hg hlt
    rw [toArray_grow d hw] at this
    exact this
  · rw [pushBack_not_full d v hc]
    exact toArray_set_tail d v hw (Nat.lt_of_le_of_ne hw.2.2.1 hc)

theorem popFront_spec (d : ArrayDeque α) (hw : WF d) (hc : d.count ≠ 0) :
    toArray d = (popFront d).1 :: toArray (popFront d).2 ∧
    WF (popFront d).2 := by
  obtain ⟨hbuf, hhead, hcount, htail, hcap⟩ := hw
  unfold popFront
  rw [if_neg hc]
  simp only
  constructor
  · unfold toArray
    simp only
    rw [show d.count = (d.count - 1) + 1 by omega, List.range_succ_eq_map,
      List.map_cons, List.map_map]
    congr 1
    · rw [Nat.add_zero, Nat.mod_eq_of_lt hhead]
    · apply List.map_congr_left
      intro i hi
      rw [List.mem_range] at hi
      show d.bufGet ((d.head + (i + 1)) % d.capacity)
        = (d.buffer.set d.head none).getD (((d.head + 1) % d.capacity + i) % d.capacity) none
      rw [Nat.mod_add_mod, Nat.add_assoc, Nat.add_comm 1 i]
      have hne : d.head ≠ (d.head + (i + 1)) % d.capacity := by
        intro he
        have h0 : (d.head + 0) % d.capacity = (d.head + (i + 1)) % d.capacity := by
          rw [Nat.add_zero, Nat.mod_eq_of_lt hhead]; exact he
        exact absurd (circIdx_inj (by omega) (by omega) h0) (by omega)
      rw [getD_set_ne _ _ _ _ _ hne]
      rfl
  · refine ⟨by simp [hbuf], Nat.mod_lt _ (by omega),
      by show d.count - 1 ≤ d.capacity; omega, ?_, hcap⟩
    show d.tail = ((d.head + 1) % d.capacity + (d.count - 1)) % d.capacity
    rw [htail, Nat.mod_add_mod, Nat.add_assoc,
      show 1 + (d.count - 1) = d.count by omega]

theorem pushBackList_spec (vs : List α) :
    ∀ d : ArrayDeque α, WF d →
      toArray (pushBackList d vs) = toArray d ++ vs.map some ∧
      WF (pushBackList d vs) := by
  induction vs with
  | nil => intro d hw; exact ⟨by simp [pushBackList], hw⟩
  | cons v vs ih =>
    intro d hw
    have h1 := toArray_pushBack d v hw
    have h2 := ih (pushBack d v) h1.2
    unfold pushBackList at h2 ⊢
    rw [List.foldl_cons]
    refine ⟨?_, h2.2⟩
    rw [h2.1, h1.1]
    simp

theorem popFrontN_spec (l : List (Option α)) :
    ∀ d : ArrayDeque α, WF d → toArray d = l →
      (popFrontN d l.length).1 = l := by
  induction l with
  | nil => intro d _ _; rfl
  | cons x rest ih =>
    intro d hw hl
    have hc : d.count ≠ 0 := by
      have := toArray_length d
      rw [hl] at this
      simp at this
      omega
    obtain ⟨hcons, hw2⟩ := popFront_spec d hw hc
    rw [hl] at hcons
    injection hcons with hx hrest
    show ((popFront d).1 :: (popFrontN (popFront d).2 rest.length).1, _).1 = x :: rest
    rw [hx, ih (popFront d).2 hw2 hrest.symm]

theorem toArray_empty (d : ArrayDeque α) (h : d.count = 0) : toArray d = [] := by
  simp [toArray, h]

end ArrayDeque

/-! ### Deque claims -/

/-- C3: pushing values with `pushBack` onto an empty well-formed deque and
then popping them all with `popFront` returns exactly the pushed values in
FIFO order — including across capacity-doubling growth — and a
grow-triggering push (`count = capacity`) appends the new element to the
logical `toArray()` sequence while preserving everything already there. -/
theorem C3_pushBack_popFront_fifo :
    (∀ (α : Type) (d : ArrayDeque α) (vs : List α), d.WF → d.count = 0 →
      (ArrayDeque.popFrontN (ArrayDeque.pushBackList d vs) vs.length).1
        = vs.map some) ∧
    (∀ (α : Type) (d : ArrayDeque α) (v : α), d.WF → d.count = d.capacity →
      (ArrayDeque.pushBack d v).toArray = d.toArray ++ [some v]) := by
  constructor
  · intro α d vs hw h0
    obtain ⟨harr, hw2⟩ := ArrayDeque.pushBackList_spec vs d hw
    rw [ArrayDeque.toArray_empty d h0, List.nil_append] at harr
    have := ArrayDeque.popFrontN_spec (vs.map some) _ hw2 harr
    rwa [List.length_map] at this
  · intro α d v hw _
    exact (ArrayDeque.toArray_pushBack d v hw).1

/-- Witness for C3 at concrete inputs: an empty 16-capacity deque receives
`[7, 8]` and pops them back in order; a full capacity-1 deque receives one
more element and its `toArray` grows by exactly that element. -/
theorem C3_pushBack_popFront_fifo_witness :
    (ArrayDeque.popFrontN
        (ArrayDeque.pushBackList
          (⟨List.replicate 16 none, 0, 0, 16, 0⟩ : ArrayDeque Int) [7, 8]) 2).1
      = [some 7, some 8] ∧
    (ArrayDeque.pushBack (⟨[some 3], 0, 0, 1, 1⟩ : ArrayDeque Int) 9).toArray
      = [some 3, some 9] := by
  constructor
  · exact C3_pushBack_popFront_fifo.1 Int _ [7, 8] (by decide) rfl
  · exact (C3_pushBack_popFront_fifo.2 Int ⟨[some 3], 0, 0, 1, 1⟩ 9
      (by decide) rfl).trans (by decide)

/-- C6: `toArray().length` equals `size`; `at(i)` agrees with `toArray()[i]`
on every in-range index; `at(i)` is the empty-sentinel on every out-of-range
index. -/
theorem C6_at_agrees_with_toArray :
    ∀ (α : Type) (d : ArrayDeque α) (i : Int),
      d.toArray.length = d.size ∧
      (0 ≤ i → i < (d.size : Int) → d.atIdx i = d.toArray.getD i.toNat none) ∧
      ((i < 0 ∨ (d.size : Int) ≤ i) → d.atIdx i = none) := by
  intro α d i
  refine ⟨ArrayDeque.toArray_length d, ?_, ?_⟩
  · intro h0 hlt
    have hni : ¬(i < 0 ∨ (d.count : Int) ≤ i) := by
      unfold ArrayDeque.size at hlt
      omega
    unfold ArrayDeque.atIdx
    rw [if_neg hni, ArrayDeque.toArray_getD d i.toNat (by unfold ArrayDeque.size at hlt; omega)]
  · intro h
    unfold ArrayDeque.atIdx
    rw [if_pos (by unfold ArrayDeque.size at h; exact h)]

/-- Witness for C6 on a concrete two-element deque: the in-range index `1`
agrees with `toArray()[1]` and the out-of-range indices `-1` and `5` give
the sentinel. -/
theorem C6_at_agrees_with_toArray_witness :
    (ArrayDeque.atIdx (⟨[some 7, some 8], 0, 0, 2, 2⟩ : ArrayDeque Int) 1 = some 8) ∧
    (ArrayDeque.atIdx (⟨[some 7, some 8], 0, 0, 2, 2⟩ : ArrayDeque Int) (-1) = none) ∧
    (ArrayDeque.atIdx (⟨[some 7, some 8], 0, 0, 2, 2⟩ : ArrayDeque Int) 5 = none) := by
  refine ⟨?_, ?_, ?_⟩
  · exact ((C6_at_agrees_with_toArray Int ⟨[some 7, some 8], 0, 0, 2, 2⟩ 1).2.1
      (by decide) (by decide)).trans (by decide)
  · exact (C6_at_agrees_with_toArray Int ⟨[some 7, some 8], 0, 0, 2, 2⟩ (-1)).2.2
      (Or.inl (by decide))
  · exact (C6_at_agrees_with_toArray Int ⟨[some 7, some 8], 0, 0, 2, 2⟩ 5).2.2
      (Or.inr (by decide))

/-- C7: `clear()` returns any deque — however large it has grown — to the
constructed-empty state at minimum capacity 16: the state equals the one
produced by the default constructor, with a fresh 16-slot backing store,
`size = 0` and `capacity = 16`. -/
theorem C7_clear_resets_to_minimum_capacity :
    ∀ (α : Type) (d : ArrayDeque α),
      d.clear = (⟨List.replicate 16 none, 0, 0, 16, 0⟩ : ArrayDeque α) ∧
      ArrayDeque.fromCapacity 16 = Except.ok d.clear ∧
      d.clear.capacity = 16 ∧ d.clear.count = 0 := by
  intro α d
  exact ⟨rfl, rfl, rfl, rfl⟩

/-- C8: a requested capacity below 1 fails with the configuration error and
construction does not complete; an accepted capacity yields
`max(requested, 16)`; and every emptiness or out-of-range condition in the
other operations resolves to the empty-sentinel, never a fatal error. -/
theorem C8_constructor_error_and_sentinels :
    (∀ (α : Type) (c : Int), c < 1 →
      ArrayDeque.fromCapacity (α := α) c
        = Except.error "Initial capacity must be at least 1") ∧
    (∀ (α : Type) (c : Int), 1 ≤ c →
      ∃ d : ArrayDeque α, ArrayDeque.fromCapacity c = Except.ok d ∧
        d.capacity = max c.toNat 16 ∧ d.count = 0) ∧
    (∀ (α : Type) (d : ArrayDeque α), d.count = 0 →
      d.popFront.1 = none ∧ d.popBack.1 = none ∧
      d.peekFront = none ∧ d.peekBack = none) ∧
    (∀ (α : Type) (d : ArrayDeque α) (i : Int),
      (i < 0 ∨ (d.count : Int) ≤ i) → d.atIdx i = none) := by
  refine ⟨?_, ?_, ?_, ?_⟩
  · intro α c hc
    unfold ArrayDeque.fromCapacity
    rw [if_pos hc]
  · intro α c hc
    refine ⟨⟨List.replicate (max c.toNat 16) none, 0, 0, max c.toNat 16, 0⟩,
      ?_, rfl, rfl⟩
    unfold ArrayDeque.fromCapacity
    rw [if_neg (by omega)]
  · intro α d h0
    unfold ArrayDeque.popFront ArrayDeque.popBack ArrayDeque.peekFront ArrayDeque.peekBack
    rw [if_pos h0]
    exact ⟨rfl, by rw [if_pos h0], by rw [if_pos h0], by rw [if_pos h0]⟩
  · intro α d i h
    unfold ArrayDeque.atIdx
    rw [if_pos h]

/-- Witness for C8 at concrete inputs: capacity 0 is rejected, capacity 3 is
raised to 16, and the empty 16-capacity deque answers every pop/peek and an
out-of-range `at` with the sentinel. -/
theorem C8_constructor_error_and_sentinels_witness :
    ArrayDeque.fromCapacity (α := Int) 0
      = Except.error "Initial capacity must be at least 1" ∧
    (∃ d : ArrayDeque Int, ArrayDeque.fromCapacity 3 = Except.ok d ∧
      d.capacity = max (Int.toNat 3) 16 ∧ d.count = 0) ∧
    ((⟨List.replicate 16 none, 0, 0, 16, 0⟩ : ArrayDeque Int).popFront.1 = none ∧
      (⟨List.replicate 16 none, 0, 0, 16, 0⟩ : ArrayDeque Int).popBack.1 = none ∧
      (⟨List.replicate 16 none, 0, 0, 16, 0⟩ : ArrayDeque Int).peekFront = none ∧
      (⟨List.replicate 16 none, 0, 0, 16, 0⟩ : ArrayDeque Int).peekBack = none) ∧
    (⟨List.replicate 16 none, 0, 0, 16, 0⟩ : ArrayDeque Int).atIdx (-2) = none := by
  refine ⟨?_, ?_, ?_, ?_⟩
  · exact C8_constructor_error_and_sentinels.1 Int 0 (by decide)
  · exact C8_constructor_error_and_sentinels.2.1 Int 3 (by decide)
  · exact C8_constructor_error_and_sentinels.2.2.1 Int _ rfl
  · exact C8_constructor_error_and_sentinels.2.2.2 Int _ (-2) (Or.inl (by decide))

/-- C9: constructing a deque from an initial list of `len` elements gives
capacity `max(16, 2 * len)`, `head = 0`, size `len`, the elements stored in
slots `0 .. len-1` in order, and `toArray()` equal to the given list. -/
theorem C9_fromElements_linearizes :
    ∀ (α : Type) (elements : List α),
      (ArrayDeque.fromElements elements).capacity
        = max 16 (2 * elements.length) ∧
      (ArrayDeque.fromElements elements).head = 0 ∧
      (ArrayDeque.fromElements elements).count = elements.length ∧
      (∀ i, i < elements.length →
        (ArrayDeque.fromElements elements).bufGet i = elements[i]?) ∧
      (ArrayDeque.fromElements elements).toArray = elements.map some := by
  intro α elements
  have hslot : ∀ i, i < elements.length →
      (ArrayDeque.fromElements elements).bufGet i = elements[i]? := by
    intro i hi
    show (elements.map some ++ List.replicate _ none).getD i none = _
    rw [getD_append_left _ _ _ _ (by simpa using hi)]
    simp [List.getD_eq_getElem?_getD, List.getElem?_map, List.getElem?_eq_getElem hi]
  refine ⟨by show max 16 (elements.length * 2) = _; rw [Nat.mul_comm], rfl, rfl,
    hslot, ?_⟩
  apply List.ext_getElem?
  intro n
  by_cases hn : n < elements.length
  · rw [show (ArrayDeque.fromElements elements).toArray
        = (List.range elements.length).map
            (fun i => (ArrayDeque.fromElements elements).bufGet
              ((0 + i) % (max 16 (elements.length * 2)))) from rfl]
    rw [List.getElem?_map, List.getElem?_range hn]
    have hcap : n < max 16 (elements.length * 2) :=
      Nat.lt_of_lt_of_le (by omega) (Nat.le_max_right _ _)
    simp only [Option.map_some', Nat.zero_add]
    rw [Nat.mod_eq_of_lt hcap, hslot n hn]
    rw [List.getElem?_map, List.getElem?_eq_getElem hn]
    rfl
  · rw [List.getElem?_eq_none, List.getElem?_eq_none]
    · simpa using by omega
    · have : (ArrayDeque.fromElements elements).toArray.length = elements.length :=
        ArrayDeque.toArray_length _
      omega

/-- Witness for C9 on the concrete list `[10, 20, 30]`: slot 2 holds `30`
and `toArray()` returns the list itself. -/
theorem C9_fromElements_linearizes_witness :
    (ArrayDeque.fromElements [10, 20, (30 : Int)]).bufGet 2 = some 30 ∧
    (ArrayDeque.fromElements [10, 20, (30 : Int)]).toArray
      = [some 10, some 20, some 30] := by
  constructor
  · exact ((C9_fromElements_linearizes Int [10, 20, 30]).2.2.2.1 2
      (by decide)).trans (by decide)
  · exact (C9_fromElements_linearizes Int [10, 20, 30]).2.2.2.2

/-! ### PriorityQueue lemmas -/

namespace PriorityQueue

variable {α : Type} [Inhabited α]

theorem nth_set_self (l : List α) (i : Nat) (x : α) (h : i < l.length) :
    nth (l.set i x) i = x :=
  getD_set_self l i x default h

theorem nth_set_ne (l : List α) (i j : Nat) (x : α) (h : i ≠ j) :
    nth (l.set i x) j = nth l j :=
  getD_set_ne l i j x default h

theorem length_swap (l : List α) (i j : Nat) : (swap l i j).length = l.length := by
  simp [swap]

theorem nth_cons_zero (a : α) (t : List α) : nth (a :: t) 0 = a := rfl

theorem nth_cons_succ (a : α) (t : List α) (n : Nat) : nth (a :: t) (n + 1) = nth t n := rfl

theorem nth_swap_fst (l : List α) (i j : Nat) (hi : i < l.length)
    (hj : j < l.length) : nth (swap l i j) i = nth l j := by
  unfold swap
  by_cases hij : i = j
  · subst hij
    exact nth_set_self _ _ _ (by simpa using hj)
  · rw [nth_set_ne _ _ _ _ (fun he => hij he.symm)]
    exact nth_set_self _ _ _ hi

theorem nth_swap_snd (l : List α) (i j : Nat) (hj : j < l.length) :
    nth (swap l i j) j = nth l i :=
  nth_set_self _ _ _ (by simpa using hj)

theorem nth_swap_other (l : List α) (i j k : Nat) (hki : k ≠ i) (hkj : k ≠ j) :
    nth (swap l i j) k = nth l k := by
  unfold swap
  rw [nth_set_ne _ _ _ _ (fun he => hkj he.symm),
    nth_set_ne _ _ _ _ (fun he => hki he.symm)]

theorem mem_of_mem_swap (l : List α) (i j : Nat) (a : α) (hi : i < l.length)
    (hj : j < l.length) (h : a ∈ swap l i j) : a ∈ l := by
  unfold swap at h
  rcases List.mem_or_eq_of_mem_set h with h2 | h2
  · rcases List.mem_or_eq_of_mem_set h2 with h3 | h3
    · exact h3
    · rw [h3]
      exact getD_mem _ _ _ hj
  · rw [h2]
    exact getD_mem _ _ _ hi

theorem count_set [DecidableEq α] (l : List α) (n : Nat) (x y : α)
    (h : n < l.length) :
    (l.set n x).count y + (if nth l n = y then 1 else 0)
      = l.count y + (if x = y then 1 else 0) := by
  induction l generalizing n with
  | nil => simp at h
  | cons a t ih =>
    cases n with
    | zero =>
      show (x :: t).count y + _ = _
      rw [List.count_cons, List.count_cons, nth_cons_zero]
      by_cases hx : x = y <;> by_cases ha : a = y <;>
        simp [hx, ha]
    | succ m =>
      show (a :: t.set m x).count y + _ = _
      rw [List.count_cons, List.count_cons, nth_cons_succ]
      have hih := ih m (by simpa using Nat.lt_of_succ_lt_succ h)
      by_cases ha : a = y <;> simp [ha] <;> omega

theorem count_swap [DecidableEq α] (l : List α) (i j : Nat) (y : α)
    (hi : i < l.length) (hj : j < l.length) :
    (swap l i j).count y = l.count y := by
  unfold swap
  have h1 := count_set l i (nth l j) y hi
  have h2 := count_set (l.set i (nth l j)) j (nth l i) y (by simpa using hj)
  by_cases hij : i = j
  · subst hij
    rw [nth_set_self _ _ _ hi] at h2
    omega
  · rw [nth_set_ne _ _ _ _ hij] at h2
    omega

theorem findIndex_none {β : Type} [DecidableEq β] (l : List β) (v : β)
    (h : v ∉ l) : findIndex l v = none := by
  induction l with
  | nil => rfl
  | cons a t ih =>
    unfold findIndex
    rw [if_neg (by simp at h; exact fun he => h.1 he.symm)]
    rw [ih (by simp at h; exact h.2)]
    rfl

theorem findIndex_mem {β : Type} [DecidableEq β] (l : List β) (v : β)
    (h : v ∈ l) : ∃ i, findIndex l v = some i := by
  induction l with
  | nil => simp at h
  | cons a t ih =>
    unfold findIndex
    by_cases ha : a = v
    · exact ⟨0, by rw [if_pos ha]⟩
    · rw [if_neg ha]
      have hvt : v ∈ t := by
        rcases List.mem_cons.mp h with h1 | h1
        · exact absurd h1.symm ha
        · exact h1
      rcases ih hvt with ⟨i, hi⟩
      rw [hi]
      exact ⟨i + 1, rfl⟩

theorem findIndex_spec (l : List α) [DecidableEq α] (v : α) (i : Nat)
    (h : findIndex l v = some i) :
    i < l.length ∧ nth l i = v ∧ ∀ k, k < i → nth l k ≠ v := by
  induction l generalizing i with
  | nil => simp [findIndex] at h
  | cons a t ih =>
    unfold findIndex at h
    by_cases ha : a = v
    · rw [if_pos ha] at h
      injection h with h
      subst h
      exact ⟨Nat.succ_pos _, ha, fun k hk => by omega⟩
    · rw [if_neg ha] at h
      cases hft : findIndex t v with
      | none => rw [hft] at h; simp at h
      | some m =>
        rw [hft] at h
        simp only [Option.map_some'] at h
        injection h with h
        obtain ⟨hm1, hm2, hm3⟩ := ih m hft
        refine ⟨by simp; omega, ?_, ?_⟩
        · rw [← h, nth_cons_succ]
          exact hm2
        · intro k hk
          cases k with
          | zero =>
            rw [nth_cons_zero]
            exact ha
          | succ k2 =>
            rw [nth_cons_succ]
            exact hm3 k2 (by omega)

theorem nth_append_left (l l2 : List α) (k : Nat) (h : k < l.length) :
    nth (l ++ l2) k = nth l k :=
  getD_append_left l l2 k default h

theorem nth_dropLast (l : List α) (k : Nat) (h : k < l.length - 1) :
    nth l.dropLast k = nth l k :=
  getD_dropLast l k default h

theorem parentIdx_lt {n : Nat} (h : 0 < n) : parentIdx n < n := by
  unfold parentIdx
  omega

theorem parentIdx_zero : parentIdx 0 = 0 := rfl

theorem bdT1_cases (cmp : α → α → Int) (l : List α) (i : Nat) :
    (bdT1 cmp l i = i ∧
      ¬(2 * i + 1 < l.length ∧ cmp (nth l (2 * i + 1)) (nth l i) < 0)) ∨
    (bdT1 cmp l i = 2 * i + 1 ∧ 2 * i + 1 < l.length ∧
      cmp (nth l (2 * i + 1)) (nth l i) < 0) := by
  unfold bdT1
  split_ifs with hc
  · exact Or.inr ⟨rfl, hc⟩
  · exact Or.inl ⟨rfl, hc⟩

theorem bdTarget_cases (cmp : α → α → Int) (l : List α) (i : Nat) :
    (bdTarget cmp l i = bdT1 cmp l i ∧
      ¬(2 * i + 2 < l.length ∧
        cmp (nth l (2 * i + 2)) (nth l (bdT1 cmp l i)) < 0)) ∨
    (bdTarget cmp l i = 2 * i + 2 ∧ 2 * i + 2 < l.length ∧
      cmp (nth l (2 * i + 2)) (nth l (bdT1 cmp l i)) < 0) := by
  unfold bdTarget
  split_ifs with hc
  · exact Or.inr ⟨rfl, hc⟩
  · exact Or.inl ⟨rfl, hc⟩

theorem bdTarget_lt (cmp : α → α → Int) (l : List α) (i : Nat)
    (h : bdTarget cmp l i ≠ i) :
    i < bdTarget cmp l i ∧ bdTarget cmp l i < l.length := by
  rcases bdTarget_cases cmp l i with ⟨he2, _⟩ | ⟨he2, hb2, _⟩
  · rcases bdT1_cases cmp l i with ⟨he1, _⟩ | ⟨he1, hb1, _⟩
    · rw [he2, he1] at h
      exact absurd rfl h
    · rw [he2, he1]
      exact ⟨by omega, hb1⟩
  · rw [he2]
    exact ⟨by omega, hb2⟩

theorem bdTarget_child (cmp : α → α → Int) (l : List α) (i : Nat)
    (h : bdTarget cmp l i ≠ i) :
    bdTarget cmp l i = 2 * i + 1 ∨ bdTarget cmp l i = 2 * i + 2 := by
  rcases bdTarget_cases cmp l i with ⟨he2, _⟩ | ⟨he2, _, _⟩
  · rcases bdT1_cases cmp l i with ⟨he1, _⟩ | ⟨he1, _, _⟩
    · rw [he2, he1] at h
      exact absurd rfl h
    · rw [he2, he1]
      exact Or.inl rfl
  · rw [he2]
    exact Or.inr rfl

theorem bubbleUp_length (cmp : α → α → Int) (heap : List α) (index : Nat) :
    (bubbleUp cmp heap index).length = heap.length := by
  induction heap, index using bubbleUp.induct cmp with
  | case1 heap index h hc ih =>
    rw [bubbleUp]
    simp only [h, hc, if_true, dif_pos]
    rw [ih, length_swap]
  | case2 heap index h hc =>
    rw [bubbleUp]
    simp only [h, hc, dif_pos, if_false]
  | case3 heap index h =>
    rw [bubbleUp, dif_neg h]

theorem bubbleDown_length (cmp : α → α → Int) (heap : List α) (index : Nat) :
    (bubbleDown cmp heap index).length = heap.length := by
  induction heap, index using bubbleDown.induct cmp with
  | case1 heap index h =>
    rw [bubbleDown, dif_pos h]
  | case2 heap index h ih =>
    rw [bubbleDown, dif_neg h]
    rw [ih, length_swap]

theorem bubbleUp_count [DecidableEq α] (cmp : α → α → Int) (heap : List α)
    (index : Nat) (y : α) :
    index < heap.length → (bubbleUp cmp heap index).count y = heap.count y := by
  induction heap, index using bubbleUp.induct cmp with
  | case1 heap index h hc ih =>
    intro hi
    rw [bubbleUp]
    simp only [h, hc, if_true, dif_pos]
    rw [ih (by rw [length_swap]; unfold parentIdx; omega)]
    exact count_swap _ _ _ _ hi (by unfold parentIdx; omega)
  | case2 heap index h hc =>
    intro _
    rw [bubbleUp]
    simp only [h, hc, dif_pos, if_false]
  | case3 heap index h =>
    intro _
    rw [bubbleUp, dif_neg h]

theorem bubbleDown_count [DecidableEq α] (cmp : α → α → Int) (heap : List α)
    (index : Nat) (y : α) :
    (bubbleDown cmp heap index).count y = heap.count y := by
  induction heap, index using bubbleDown.induct cmp with
  | case1 heap index h =>
    rw [bubbleDown, dif_pos h]
  | case2 heap index h ih =>
    obtain ⟨hlt, hlen⟩ := bdTarget_lt cmp heap index h
    rw [bubbleDown, dif_neg h, ih]
    exact count_swap _ _ _ _ (by omega) hlen

theorem mem_of_mem_bubbleDown (cmp : α → α → Int) (heap : List α) (index : Nat)
    (a : α) : a ∈ bubbleDown cmp heap index → a ∈ heap := by
  induction heap, index using bubbleDown.induct cmp with
  | case1 heap index h =>
    rw [bubbleDown, dif_pos h]
    exact id
  | case2 heap index h ih =>
    obtain ⟨hlt, hlen⟩ := bdTarget_lt cmp heap index h
    rw [bubbleDown, dif_neg h]
    intro hm
    exact mem_of_mem_swap _ _ _ _ (by omega) hlen (ih hm)

/-- Correctness of `bubbleUp`: if every heap edge except the one above
`index` holds, and the children of `index` do not outrank the element at
`parentIdx index`, then sifting up restores the full invariant.  Requires a
sign-antisymmetric and transitive comparator. -/
theorem bubbleUp_isHeap (cmp : α → α → Int) (hA : CmpAntisymm cmp)
    (hT : CmpTrans cmp) :
    ∀ (l : List α) (i : Nat), i < l.length →
      (∀ j, 0 < j → j < l.length → j ≠ i →
        0 ≤ cmp (nth l j) (nth l (parentIdx j))) →
      (∀ c, c < l.length → parentIdx c = i → 0 < i →
        0 ≤ cmp (nth l c) (nth l (parentIdx i))) →
      IsHeap cmp (bubbleUp cmp l i) := by
  intro l i
  induction l, i using bubbleUp.induct cmp with
  | case1 l i hpos hcmp ih =>
    intro hi hE hG
    rw [bubbleUp]
    simp only [hpos, hcmp, if_true, dif_pos]
    have hpi_lt : parentIdx i < i := parentIdx_lt hpos
    have hpilen : parentIdx i < l.length := by omega
    apply ih
    · rw [length_swap]; omega
    · -- all edges except the one above the new position `parentIdx i`
      intro j hj0 hjlen hjpi
      rw [length_swap] at hjlen
      by_cases hji : j = i
      · subst hji
        rw [nth_swap_fst _ _ _ hi hpilen, nth_swap_snd _ _ _ hpilen]
        exact (hA _ _).mp (le_of_lt hcmp)
      · rw [nth_swap_other _ _ _ _ hji hjpi]
        by_cases hpj : parentIdx j = i
        · rw [hpj, nth_swap_fst _ _ _ hi hpilen]
          exact hG j hjlen hpj hpos
        · by_cases hpjpi : parentIdx j = parentIdx i
          · rw [hpjpi, nth_swap_snd _ _ _ hpilen]
            have h1 : 0 ≤ cmp (nth l j) (nth l (parentIdx i)) := by
              have := hE j hj0 hjlen hji
              rwa [hpjpi] at this
            have h2 : cmp (nth l (parentIdx i)) (nth l j) ≤ 0 := (hA _ _).mpr h1
            have h3 : cmp (nth l i) (nth l j) ≤ 0 :=
              hT _ _ _ (le_of_lt hcmp) h2
            exact (hA _ _).mp h3
          · rw [nth_swap_other _ _ _ _ hpj hpjpi]
            exact hE j hj0 hjlen hji
    · -- children of the new position `parentIdx i` vs its parent
      intro c hclen hpc hpi0
      rw [length_swap] at hclen
      have hpp_lt : parentIdx (parentIdx i) < parentIdx i := parentIdx_lt hpi0
      have hppne_i : parentIdx (parentIdx i) ≠ i := by omega
      have hppne_pi : parentIdx (parentIdx i) ≠ parentIdx i := by omega
      rw [nth_swap_other _ _ _ _ hppne_i hppne_pi]
      by_cases hci : c = i
      · rw [hci, nth_swap_fst _ _ _ hi hpilen]
        exact hE (parentIdx i) hpi0 hpilen (by omega)
      · have hcpi : c ≠ parentIdx i := by
          intro he
          rw [he] at hpc
          exact absurd hpc (Nat.ne_of_lt (parentIdx_lt hpi0))
        rw [nth_swap_other _ _ _ _ hci hcpi]
        have hc0 : 0 < c := by
          rcases Nat.eq_zero_or_pos c with h0 | h0
          · rw [h0, parentIdx_zero] at hpc
            omega
          · exact h0
        have h1 : 0 ≤ cmp (nth l c) (nth l (parentIdx i)) := by
          have := hE c hc0 hclen hci
          rwa [hpc] at this
        have h2 : 0 ≤ cmp (nth l (parentIdx i)) (nth l (parentIdx (parentIdx i))) :=
          hE (parentIdx i) hpi0 hpilen (by omega)
        exact (hA _ _).mp (hT _ _ _ ((hA _ _).mpr h2) ((hA _ _).mpr h1))
  | case2 l i hpos hcmp =>
    intro hi hE hG
    rw [bubbleUp]
    simp only [hpos, hcmp, dif_pos, if_false]
    intro j hj0 hjlen
    by_cases hji : j = i
    · subst hji
      exact Int.not_lt.mp hcmp
    · exact hE j hj0 hjlen hji
  | case3 l i hpos =>
    intro hi hE hG
    rw [bubbleUp, dif_neg hpos]
    intro j hj0 hjlen
    exact hE j hj0 hjlen (by omega)

/-- Correctness of `bubbleDown`: if every heap edge with parent index at
least `K` holds except those directly below `i`, and the children of `i` do
not outrank the element above `i`, then sifting down restores the invariant
on all edges with parent index at least `K`.  Requires a sign-antisymmetric
and transitive comparator. -/
theorem bubbleDown_heapFrom (cmp : α → α → Int) (hA : CmpAntisymm cmp)
    (hT : CmpTrans cmp) :
    ∀ (l : List α) (i : Nat), ∀ K : Nat, K ≤ i →
      (∀ j, 0 < j → j < l.length → K ≤ parentIdx j → parentIdx j ≠ i →
        0 ≤ cmp (nth l j) (nth l (parentIdx j))) →
      (∀ c, c < l.length → parentIdx c = i → 0 < i → K ≤ parentIdx i →
        0 ≤ cmp (nth l c) (nth l (parentIdx i))) →
      HeapFrom cmp (bubbleDown cmp l i) K := by
  intro l i
  induction l, i using bubbleDown.induct cmp with
  | case1 l i htarget =>
    intro K hKi hE hG
    rw [bubbleDown, dif_pos htarget]
    intro j hj0 hjlen hKpj
    by_cases hpj : parentIdx j = i
    · have hj12 : j = 2 * i + 1 ∨ j = 2 * i + 2 := by
        unfold parentIdx at hpj
        omega
      rcases bdTarget_cases cmp l i with ⟨he2, hn2⟩ | ⟨he2, hb2, hc2⟩
      · rcases bdT1_cases cmp l i with ⟨he1, hn1⟩ | ⟨he1, hb1, hc1⟩
        · rw [he1] at hn2
          rw [hpj]
          rcases hj12 with hj | hj
          · subst hj
            exact Int.not_lt.mp (fun hc => hn1 ⟨hjlen, hc⟩)
          · subst hj
            exact Int.not_lt.mp (fun hc => hn2 ⟨hjlen, hc⟩)
        · rw [he2, he1] at htarget
          omega
      · rw [he2] at htarget
        omega
    · exact hE j hj0 hjlen hKpj hpj
  | case2 l i htarget ih =>
    intro K hKi hE hG
    rw [bubbleDown, dif_neg htarget]
    obtain ⟨hit, htlen⟩ := bdTarget_lt cmp l i htarget
    have hilen : i < l.length := by omega
    have ht12 : bdTarget cmp l i = 2 * i + 1 ∨ bdTarget cmp l i = 2 * i + 2 :=
      bdTarget_child cmp l i htarget
    have hpt : parentIdx (bdTarget cmp l i) = i := by
      unfold parentIdx
      omega
    -- the chosen child strictly outranks the current node …
    have hF1 : cmp (nth l (bdTarget cmp l i)) (nth l i) ≤ 0 := by
      rcases bdTarget_cases cmp l i with ⟨he2, hn2⟩ | ⟨he2, hb2, hc2⟩
      · rcases bdT1_cases cmp l i with ⟨he1, hn1⟩ | ⟨he1, hb1, hc1⟩
        · rw [he2, he1] at htarget
          exact absurd rfl htarget
        · rw [he2, he1]
          exact le_of_lt hc1
      · rcases bdT1_cases cmp l i with ⟨he1, hn1⟩ | ⟨he1, hb1, hc1⟩
        · rw [he1] at hc2
          rw [he2]
          exact le_of_lt hc2
        · rw [he1] at hc2
          rw [he2]
          exact hT _ _ _ (le_of_lt hc2) (le_of_lt hc1)
    -- … and the other child does not outrank the chosen one
    have hF2 : ∀ s, 0 < s → s < l.length → parentIdx s = i →
        s ≠ bdTarget cmp l i →
        0 ≤ cmp (nth l s) (nth l (bdTarget cmp l i)) := by
      intro s hs0 hslen hps hst
      have hs12 : s = 2 * i + 1 ∨ s = 2 * i + 2 := by
        unfold parentIdx at hps
        omega
      rcases bdTarget_cases cmp l i with ⟨he2, hn2⟩ | ⟨he2, hb2, hc2⟩
      · rcases bdT1_cases cmp l i with ⟨he1, hn1⟩ | ⟨he1, hb1, hc1⟩
        · rw [he2, he1] at htarget
          exact absurd rfl htarget
        · -- target is the left child, s must be the right child
          have hs : s = 2 * i + 2 := by
            rcases hs12 with h | h
            · rw [he2, he1] at hst; omega
            · exact h
          rw [he1] at hn2
          rw [he2, he1]
          subst hs
          exact Int.not_lt.mp (fun hc => hn2 ⟨hslen, hc⟩)
      · -- target is the right child, s must be the left child
        have hs : s = 2 * i + 1 := by
          rcases hs12 with h | h
          · exact h
          · rw [he2] at hst; omega
        rcases bdT1_cases cmp l i with ⟨he1, hn1⟩ | ⟨he1, hb1, hc1⟩
        · -- left child did not outrank the node
          have hsl : 0 ≤ cmp (nth l s) (nth l i) := by
            subst hs
            exact Int.not_lt.mp (fun hc => hn1 ⟨hslen, hc⟩)
          rw [he1] at hc2
          rw [he2]
          subst hs
          refine (hA _ _).mp (hT _ _ _ (le_of_lt hc2) ((hA _ _).mpr hsl))
        · -- right child outranked the left child directly
          rw [he1] at hc2
          rw [he2]
          subst hs
          exact (hA _ _).mp (le_of_lt hc2)
    apply ih K (by omega)
    · -- edges away from the new hole
      intro j hj0 hjlen hKpj hpjt
      rw [length_swap] at hjlen
      by_cases hji : j = i
      · subst hji
        have hpj_lt : parentIdx j < j := parentIdx_lt hj0
        rw [nth_swap_fst _ _ _ hilen htlen,
          nth_swap_other _ _ _ _ (by omega) (by omega)]
        exact hG (bdTarget cmp l j) htlen hpt hj0 hKpj
      · by_cases hjt : j = bdTarget cmp l i
        · subst hjt
          rw [hpt, nth_swap_snd _ _ _ htlen, nth_swap_fst _ _ _ hilen htlen]
          exact (hA _ _).mp hF1
        · rw [nth_swap_other _ _ _ _ hji hjt]
          by_cases hpj : parentIdx j = i
          · rw [hpj, nth_swap_fst _ _ _ hilen htlen]
            exact hF2 j hj0 hjlen hpj hjt
          · rw [nth_swap_other _ _ _ _ hpj hpjt]
            exact hE j hj0 hjlen hKpj hpj
    · -- grandchildren of the old hole vs the moved-up child
      intro c hclen hpc ht0 hKpt
      rw [length_swap] at hclen
      rw [hpt, nth_swap_fst _ _ _ hilen htlen]
      have hc_gt : bdTarget cmp l i < c := by
        have := parentIdx_lt (show 0 < c by
          rcases Nat.eq_zero_or_pos c with h0 | h0
          · rw [h0, parentIdx_zero] at hpc; omega
          · exact h0)
        omega
      rw [nth_swap_other _ _ _ _ (by omega) (by omega)]
      have := hE c (by omega) hclen (by rw [hpc]; omega) (by rw [hpc]; omega)
      rwa [hpc] at this

theorem IsHeap_of_heapFrom_zero (cmp : α → α → Int) (l : List α)
    (h : HeapFrom cmp l 0) : IsHeap cmp l :=
  fun j hj0 hjlen => h j hj0 hjlen (Nat.zero_le _)

theorem push_isHeap (cmp : α → α → Int) (hA : CmpAntisymm cmp)
    (hT : CmpTrans cmp) (l : List α) (v : α) (hl : IsHeap cmp l) :
    IsHeap cmp (push cmp l v) := by
  unfold push
  apply bubbleUp_isHeap cmp hA hT (l ++ [v]) l.length (by simp)
  · intro j hj0 hjlen hji
    have hjlt : j < l.length := by
      simp at hjlen
      omega
    have hpj : parentIdx j < l.length := by
      have := parentIdx_lt hj0
      omega
    rw [nth_append_left _ _ _ hjlt, nth_append_left _ _ _ hpj]
    exact hl j hj0 hjlt
  · intro c hclen hpc hpos
    exfalso
    unfold parentIdx at hpc
    simp at hclen
    omega

theorem pop_isHeap (cmp : α → α → Int) (hA : CmpAntisymm cmp)
    (hT : CmpTrans cmp) (l : List α) (hl : IsHeap cmp l) :
    IsHeap cmp (pop cmp l).2 := by
  unfold pop
  split_ifs with h0 h1
  · exact hl
  · intro j hj0 hjlen
    simp at hjlen
  · simp only
    apply IsHeap_of_heapFrom_zero
    apply bubbleDown_heapFrom cmp hA hT _ 0 0 le_rfl
    · intro j hj0 hjlen hKpj hpj0
      have hlen2 : ((l.dropLast).set 0 (nth l (l.length - 1))).length
          = l.length - 1 := by simp
      rw [hlen2] at hjlen
      have hpj_lt : parentIdx j < j := parentIdx_lt hj0
      have hpj_pos : 0 < parentIdx j := Nat.pos_of_ne_zero hpj0
      rw [nth_set_ne _ _ _ _ (by omega), nth_set_ne _ _ _ _ (by omega),
        nth_dropLast _ _ (by omega), nth_dropLast _ _ (by omega)]
      exact hl j hj0 (by omega)
    · intro c _ _ h0c
      exact absurd h0c (lt_irrefl 0)

theorem replace_isHeap (cmp : α → α → Int) (hA : CmpAntisymm cmp)
    (hT : CmpTrans cmp) (l : List α) (v : α) (hl : IsHeap cmp l) :
    IsHeap cmp (replace cmp l v).2 := by
  unfold replace
  split_ifs with h0
  · exact push_isHeap cmp hA hT l v hl
  · simp only
    apply IsHeap_of_heapFrom_zero
    apply bubbleDown_heapFrom cmp hA hT _ 0 0 le_rfl
    · intro j hj0 hjlen hKpj hpj0
      rw [List.length_set] at hjlen
      have hpj_lt : parentIdx j < j := parentIdx_lt hj0
      have hpj_pos : 0 < parentIdx j := Nat.pos_of_ne_zero hpj0
      rw [nth_set_ne _ _ _ _ (by omega), nth_set_ne _ _ _ _ (by omega)]
      exact hl j hj0 hjlen
    · intro c _ _ h0c
      exact absurd h0c (lt_irrefl 0)

theorem pushPop_isHeap (cmp : α → α → Int) (hA : CmpAntisymm cmp)
    (hT : CmpTrans cmp) (l : List α) (v : α) (hl : IsHeap cmp l) :
    IsHeap cmp (pushPop cmp l v).2 := by
  unfold pushPop
  split_ifs with h0
  · exact hl
  · exact replace_isHeap cmp hA hT l v hl

theorem heapifyFrom_isHeap (cmp : α → α → Int) (hA : CmpAntisymm cmp)
    (hT : CmpTrans cmp) :
    ∀ (K : Nat) (l : List α), HeapFrom cmp l K →
      IsHeap cmp (heapifyFrom cmp l K) := by
  intro K
  induction K with
  | zero =>
    intro l h
    exact IsHeap_of_heapFrom_zero cmp l h
  | succ k ih =>
    intro l h
    show IsHeap cmp (heapifyFrom cmp (bubbleDown cmp l k) k)
    apply ih
    apply bubbleDown_heapFrom cmp hA hT l k k le_rfl
    · intro j hj0 hjlen hKpj hpjk
      exact h j hj0 hjlen (by omega)
    · intro c hclen hpc hk0 hkpk
      exfalso
      have := parentIdx_lt hk0
      omega

theorem heapify_isHeap (cmp : α → α → Int) (hA : CmpAntisymm cmp)
    (hT : CmpTrans cmp) (l : List α) : IsHeap cmp (heapify cmp l) := by
  unfold heapify
  apply heapifyFrom_isHeap cmp hA hT
  intro j hj0 hjlen hK
  exfalso
  unfold parentIdx at hK
  omega

theorem merge_isHeap (cmp : α → α → Int) (hA : CmpAntisymm cmp)
    (hT : CmpTrans cmp) (l other : List α) :
    IsHeap cmp (merge cmp l other) :=
  heapify_isHeap cmp hA hT (l ++ other)

theorem remove_isHeap [DecidableEq α] (cmp : α → α → Int) (hA : CmpAntisymm cmp)
    (hT : CmpTrans cmp) (l : List α) (v : α) (hl : IsHeap cmp l) :
    IsHeap cmp (remove cmp l v).2 := by
  unfold remove
  cases hf : findIndex l v with
  | none => exact hl
  | some index =>
    obtain ⟨hidx, hvv, _⟩ := findIndex_spec l v index hf
    simp only
    split_ifs with hlast hup
    · -- removing the final position: plain truncation
      intro j hj0 hjlen
      rw [List.length_dropLast] at hjlen
      have hpj_lt : parentIdx j < j := parentIdx_lt hj0
      rw [nth_dropLast _ _ (by omega), nth_dropLast _ _ (by omega)]
      exact hl j hj0 (by omega)
    · -- relocated element outranks its new parent: sift up
      have hidx2 : index < l.length - 1 := by omega
      have hpidx_lt : parentIdx index < index := parentIdx_lt hup.1
      have hnth_idx : nth ((l.dropLast).set index (nth l (l.length - 1))) index
          = nth l (l.length - 1) :=
        nth_set_self _ _ _ (by simp; omega)
      have hnth_p : nth ((l.dropLast).set index (nth l (l.length - 1)))
          (parentIdx index) = nth l (parentIdx index) := by
        rw [nth_set_ne _ _ _ _ (by omega), nth_dropLast _ _ (by omega)]
      apply bubbleUp_isHeap cmp hA hT _ index (by simp; omega)
      · intro j hj0 hjlen hji
        rw [List.length_set, List.length_dropLast] at hjlen
        have hpj_lt : parentIdx j < j := parentIdx_lt hj0
        by_cases hpj : parentIdx j = index
        · rw [hpj, hnth_idx, nth_set_ne _ _ _ _ (by omega),
            nth_dropLast _ _ (by omega)]
          -- chain: last ≺ parent(index) ≼ old value at index ≼ child j
          have e0 : cmp (nth l (l.length - 1)) (nth l (parentIdx index)) < 0 := by
            have := hup.2
            rwa [hnth_idx, hnth_p] at this
          have e1 : 0 ≤ cmp (nth l index) (nth l (parentIdx index)) :=
            hl index hup.1 (by omega)
          have e2 : 0 ≤ cmp (nth l j) (nth l index) := by
            have := hl j hj0 (by omega)
            rwa [hpj] at this
          refine (hA _ _).mp (hT _ _ _ (hT _ _ _ (le_of_lt e0)
            ((hA _ _).mpr e1)) ((hA _ _).mpr e2))
        · rw [nth_set_ne _ _ _ _ (by omega), nth_dropLast _ _ (by omega),
            nth_set_ne _ _ _ _ (by omega), nth_dropLast _ _ (by omega)]
          exact hl j hj0 (by omega)
      · intro c hclen hpc hpos
        rw [List.length_set, List.length_dropLast] at hclen
        have hc_gt : index < c := by
          have := parentIdx_lt (show 0 < c by
            rcases Nat.eq_zero_or_pos c with hc0 | hc0
            · rw [hc0, parentIdx_zero] at hpc; omega
            · exact hc0)
          omega
        rw [hnth_p, nth_set_ne _ _ _ _ (by omega), nth_dropLast _ _ (by omega)]
        have e1 : 0 ≤ cmp (nth l index) (nth l (parentIdx index)) :=
          hl index hpos (by omega)
        have e2 : 0 ≤ cmp (nth l c) (nth l index) := by
          have := hl c (by omega) (by omega)
          rwa [hpc] at this
        exact (hA _ _).mp (hT _ _ _ ((hA _ _).mpr e1) ((hA _ _).mpr e2))
    · -- otherwise: sift down from the hole
      have hidx2 : index < l.length - 1 := by omega
      apply IsHeap_of_heapFrom_zero
      apply bubbleDown_heapFrom cmp hA hT _ index 0 (Nat.zero_le _)
      · intro j hj0 hjlen _ hpj
        rw [List.length_set, List.length_dropLast] at hjlen
        have hpj_lt : parentIdx j < j := parentIdx_lt hj0
        by_cases hji : j = index
        · subst hji
          have heq : 0 ≤ cmp (nth ((l.dropLast).set j (nth l (l.length - 1))) j)
              (nth ((l.dropLast).set j (nth l (l.length - 1))) (parentIdx j)) := by
            rcases Nat.eq_zero_or_pos j with hj00 | hj00
            · omega
            · exact Int.not_lt.mp (fun hc => hup ⟨hj00, hc⟩)
          exact heq
        · rw [nth_set_ne _ _ _ _ (by omega), nth_dropLast _ _ (by omega),
            nth_set_ne _ _ _ _ (by omega), nth_dropLast _ _ (by omega)]
          exact hl j hj0 (by omega)
      · intro c hclen hpc hpos _
        rw [List.length_set, List.length_dropLast] at hclen
        have hpidx_lt : parentIdx index < index := parentIdx_lt hpos
        have hc_gt : index < c := by
          have := parentIdx_lt (show 0 < c by
            rcases Nat.eq_zero_or_pos c with hc0 | hc0
            · rw [hc0, parentIdx_zero] at hpc; omega
            · exact hc0)
          omega
        rw [nth_set_ne _ _ _ _ (by omega), nth_dropLast _ _ (by omega),
          nth_set_ne _ _ _ _ (by omega), nth_dropLast _ _ (by omega)]
        have e1 : 0 ≤ cmp (nth l index) (nth l (parentIdx index)) :=
          hl index hpos (by omega)
        have e2 : 0 ≤ cmp (nth l c) (nth l index) := by
          have := hl c (by omega) (by omega)
          rwa [hpc] at this
        exact (hA _ _).mp (hT _ _ _ ((hA _ _).mpr e1) ((hA _ _).mpr e2))

theorem nth_eq_getElem (l : List α) (k : Nat) (h : k < l.length) :
    nth l k = l[k] := by
  unfold nth
  rw [List.getD_eq_getElem?_getD, List.getElem?_eq_getElem h]
  rfl

/-- With a sign-antisymmetric transitive comparator, the root of a heap does
not strictly outrank-from-below any element: `cmp root x <= 0` throughout. -/
theorem root_minimal (cmp : α → α → Int) (hA : CmpAntisymm cmp)
    (hT : CmpTrans cmp) (l : List α) (hl : IsHeap cmp l) :
    ∀ i, i < l.length → cmp (nth l 0) (nth l i) ≤ 0 := by
  intro i
  induction i using Nat.strong_induction_on with
  | _ i ih =>
    intro hi
    rcases Nat.eq_zero_or_pos i with h0 | h0
    · subst h0
      rcases le_or_lt (cmp (nth l 0) (nth l 0)) 0 with h | h
      · exact h
      · have := (hA (nth l 0) (nth l 0)).mpr (le_of_lt h)
        omega
    · have hpi_lt : parentIdx i < i := parentIdx_lt h0
      have h1 : cmp (nth l 0) (nth l (parentIdx i)) ≤ 0 := ih _ hpi_lt (by omega)
      have h2 : 0 ≤ cmp (nth l i) (nth l (parentIdx i)) := hl i h0 hi
      exact hT _ _ _ h1 ((hA _ _).mpr h2)

theorem pop_length (cmp : α → α → Int) (l : List α) (h : l.length ≠ 0) :
    (pop cmp l).2.length = l.length - 1 := by
  unfold pop
  split_ifs with h0 h1
  · exact absurd h0 h
  · simp [h1]
  · simp [bubbleDown_length]

theorem mem_pop (cmp : α → α → Int) (l : List α) (a : α)
    (h : a ∈ (pop cmp l).2) : a ∈ l := by
  unfold pop at h
  split_ifs at h with h0 h1
  · exact h
  · simp at h
  · simp only at h
    have h2 := mem_of_mem_bubbleDown cmp _ _ _ h
    rcases List.mem_or_eq_of_mem_set h2 with h3 | h3
    · exact List.dropLast_subset l h3
    · rw [h3]
      exact getD_mem _ _ _ (by omega)

/-- The fueled draining loop only returns elements of the heap and, for a
lawful comparator, returns them in pairwise non-strict comparator order. -/
theorem drainAux_props (cmp : α → α → Int) (hA : CmpAntisymm cmp)
    (hT : CmpTrans cmp) :
    ∀ (n : Nat) (l : List α), l.length ≤ n → IsHeap cmp l →
      (∀ x ∈ drainAux cmp n l, x ∈ l) ∧
      List.Pairwise (fun a b => cmp a b ≤ 0) (drainAux cmp n l) := by
  intro n
  induction n with
  | zero =>
    intro l _ _
    exact ⟨by intro x hx; simp [drainAux] at hx, by simp [drainAux]⟩
  | succ m ih =>
    intro l hn hl
    by_cases h0 : l.length = 0
    · unfold drainAux
      rw [if_pos h0]
      exact ⟨by intro x hx; simp at hx, by simp⟩
    · unfold drainAux
      rw [if_neg h0]
      have hrest_len : (pop cmp l).2.length ≤ m := by
        rw [pop_length cmp l h0]
        omega
      have hrest_heap : IsHeap cmp (pop cmp l).2 := pop_isHeap cmp hA hT l hl
      obtain ⟨ihm, ihp⟩ := ih (pop cmp l).2 hrest_len hrest_heap
      constructor
      · intro x hx
        rcases List.mem_cons.mp hx with hx | hx
        · rw [hx]
          exact getD_mem _ _ _ (by omega)
        · exact mem_pop cmp l x (ihm x hx)
      · rw [List.pairwise_cons]
        refine ⟨?_, ihp⟩
        intro x hx
        have hxl : x ∈ l := mem_pop cmp l x (ihm x hx)
        rcases List.mem_iff_getElem.mp hxl with ⟨k, hk, hkx⟩
        have := root_minimal cmp hA hT l hl k hk
        rwa [nth_eq_getElem l k hk, hkx] at this

theorem count_eraseIdx [DecidableEq α] (l : List α) (n : Nat) (y : α)
    (h : n < l.length) :
    (l.eraseIdx n).count y + (if nth l n = y then 1 else 0) = l.count y := by
  induction l generalizing n with
  | nil => simp at h
  | cons a t ih =>
    cases n with
    | zero =>
      show t.count y + _ = _
      rw [List.count_cons, nth_cons_zero]
      by_cases ha : a = y <;> simp [ha]
    | succ m =>
      show (a :: t.eraseIdx m).count y + _ = _
      rw [List.count_cons, List.count_cons, nth_cons_succ]
      have hih := ih m (by simpa using Nat.lt_of_succ_lt_succ h)
      by_cases ha : a = y <;> simp [ha] <;> omega

theorem count_dropLast [DecidableEq α] (l : List α) (y : α) (h : l.length ≠ 0) :
    (l.dropLast).count y + (if nth l (l.length - 1) = y then 1 else 0)
      = l.count y := by
  have hne : l ≠ [] := by
    intro he
    rw [he] at h
    exact h rfl
  conv_rhs => rw [← List.dropLast_append_getLast hne]
  rw [List.count_append]
  congr 1
  have hg : l.getLast hne = nth l (l.length - 1) := by
    rw [nth_eq_getElem _ _ (by have := List.length_pos.mpr hne; omega)]
    exact List.getLast_eq_getElem l hne
  rw [hg]
  by_cases hy : nth l (l.length - 1) = y <;>
    simp [hy, List.count_cons, List.count_nil]

/-- Full behaviour of `remove(v)`: an absent value reports failure with no
mutation; a present value reports success, shrinks the heap by exactly one,
and the surviving content is — as a multiset — the original minus the first
backing-array occurrence of `v`. -/
theorem remove_spec [DecidableEq α] (cmp : α → α → Int) (heap : List α)
    (v : α) :
    (v ∉ heap → remove cmp heap v = (false, heap)) ∧
    (v ∈ heap → ∃ idx, findIndex heap v = some idx ∧ idx < heap.length ∧
      nth heap idx = v ∧ (∀ k, k < idx → nth heap k ≠ v) ∧
      (remove cmp heap v).1 = true ∧
      (remove cmp heap v).2.length + 1 = heap.length ∧
      (remove cmp heap v).2.Perm (heap.eraseIdx idx)) := by
  constructor
  · intro hv
    unfold remove
    rw [findIndex_none heap v hv]
  · intro hv
    obtain ⟨idx, hf⟩ := findIndex_mem heap v hv
    obtain ⟨hidx, hnth, hmin⟩ := findIndex_spec heap v idx hf
    have key : (remove cmp heap v).1 = true ∧
        (remove cmp heap v).2.length + 1 = heap.length ∧
        ∀ y, (remove cmp heap v).2.count y = (heap.eraseIdx idx).count y := by
      unfold remove
      rw [hf]
      simp only
      split_ifs with hlast hup
      · refine ⟨rfl, by simp; omega, ?_⟩
        intro y
        show (heap.dropLast).count y = _
        have h1 := count_dropLast heap y (by omega)
        have h2 := count_eraseIdx heap idx y hidx
        rw [← hlast] at h1
        omega
      · refine ⟨rfl, by simp [bubbleUp_length]; omega, ?_⟩
        intro y
        show (bubbleUp cmp ((heap.dropLast).set idx (nth heap (heap.length - 1)))
          idx).count y = _
        rw [bubbleUp_count cmp _ idx y (by simp; omega)]
        have hs := count_set (heap.dropLast) idx (nth heap (heap.length - 1)) y
          (by simp; omega)
        rw [nth_dropLast _ _ (by omega)] at hs
        have hd := count_dropLast heap y (by omega)
        have he := count_eraseIdx heap idx y hidx
        omega
      · refine ⟨rfl, by simp [bubbleDown_length]; omega, ?_⟩
        intro y
        show (bubbleDown cmp ((heap.dropLast).set idx (nth heap (heap.length - 1)))
          idx).count y = _
        rw [bubbleDown_count]
        have hs := count_set (heap.dropLast) idx (nth heap (heap.length - 1)) y
          (by simp; omega)
        rw [nth_dropLast _ _ (by omega)] at hs
        have hd := count_dropLast heap y (by omega)
        have he := count_eraseIdx heap idx y hidx
        omega
    exact ⟨idx, hf, hidx, hnth, hmin, key.1, key.2.1,
      List.perm_iff_count.mpr key.2.2⟩

end PriorityQueue

/-! ### PriorityQueue claims -/

/-- C1 counterexample: the heap invariant is *not* preserved by `push` for
an arbitrary configured comparator.  With the comparator that always
answers `-1`, the singleton heap `[0]` satisfies the invariant, but pushing
`1` produces `[1, 0]`, which violates it: `compare(heap[1], heap[0]) = -1 < 0`. -/
theorem C1_heap_invariant_counterexample :
    PriorityQueue.IsHeap (fun _ _ => (-1 : Int)) [(0 : Int)] ∧
    PriorityQueue.push (fun _ _ => (-1 : Int)) [(0 : Int)] 1 = [1, 0] ∧
    ¬ PriorityQueue.IsHeap (fun _ _ => (-1 : Int)) [(1 : Int), 0] := by
  refine ⟨?_, ?_, ?_⟩
  · intro j hj0 hjlen
    simp at hjlen
    omega
  · simp [PriorityQueue.push, PriorityQueue.bubbleUp, swap, nth, parentIdx]
  · intro h
    have := h 1 (by omega) (by simp)
    simp [nth, parentIdx] at this

/-- C1 (amended): for every comparator that is sign-antisymmetric and
transitive — which includes the default min/max comparators and every total
preorder — the heap invariant holds after each public mutating call:
`push`, `pop`, `remove`, `replace`, `pushPop`, `merge` and `heapify`
(`merge` and `heapify` even establish it from arbitrary content). -/
theorem C1_heap_invariant_lawful (α : Type) [Inhabited α] [DecidableEq α]
    (cmp : α → α → Int) (hA : PriorityQueue.CmpAntisymm cmp)
    (hT : PriorityQueue.CmpTrans cmp) :
    (∀ (l : List α) (v : α), PriorityQueue.IsHeap cmp l →
      PriorityQueue.IsHeap cmp (PriorityQueue.push cmp l v)) ∧
    (∀ l : List α, PriorityQueue.IsHeap cmp l →
      PriorityQueue.IsHeap cmp (PriorityQueue.pop cmp l).2) ∧
    (∀ (l : List α) (v : α), PriorityQueue.IsHeap cmp l →
      PriorityQueue.IsHeap cmp (PriorityQueue.remove cmp l v).2) ∧
    (∀ (l : List α) (v : α), PriorityQueue.IsHeap cmp l →
      PriorityQueue.IsHeap cmp (PriorityQueue.replace cmp l v).2) ∧
    (∀ (l : List α) (v : α), PriorityQueue.IsHeap cmp l →
      PriorityQueue.IsHeap cmp (PriorityQueue.pushPop cmp l v).2) ∧
    (∀ l other : List α,
      PriorityQueue.IsHeap cmp (PriorityQueue.merge cmp l other)) ∧
    (∀ l : List α, PriorityQueue.IsHeap cmp (PriorityQueue.heapify cmp l)) :=
  ⟨fun l v => PriorityQueue.push_isHeap cmp hA hT l v,
   fun l => PriorityQueue.pop_isHeap cmp hA hT l,
   fun l v => PriorityQueue.remove_isHeap cmp hA hT l v,
   fun l v => PriorityQueue.replace_isHeap cmp hA hT l v,
   fun l v => PriorityQueue.pushPop_isHeap cmp hA hT l v,
   fun l other => PriorityQueue.merge_isHeap cmp hA hT l other,
   fun l => PriorityQueue.heapify_isHeap cmp hA hT l⟩

/-- Witness for the amended C1 at the default min-comparator: its laws hold,
`[5]` is a heap, and both a concrete `push` and a concrete `heapify`
preserve/establish the invariant. -/
theorem C1_heap_invariant_lawful_witness :
    PriorityQueue.CmpAntisymm minComparator ∧
    PriorityQueue.CmpTrans minComparator ∧
    PriorityQueue.IsHeap minComparator [(5 : Int)] ∧
    PriorityQueue.IsHeap minComparator
      (PriorityQueue.push minComparator [(5 : Int)] 3) ∧
    PriorityQueue.IsHeap minComparator
      (PriorityQueue.heapify minComparator [(9 : Int), 4, 7]) := by
  have hA : PriorityQueue.CmpAntisymm minComparator := by
    intro a b
    unfold minComparator
    omega
  have hT : PriorityQueue.CmpTrans minComparator := by
    intro a b c h1 h2
    unfold minComparator at h1 h2 ⊢
    omega
  have hh : PriorityQueue.IsHeap minComparator [(5 : Int)] := by
    intro j hj0 hjlen
    simp at hjlen
    omega
  exact ⟨hA, hT, hh,
    (C1_heap_invariant_lawful Int minComparator hA hT).1 [5] 3 hh,
    (C1_heap_invariant_lawful Int minComparator hA hT).2.2.2.2.2.2 [9, 4, 7]⟩

/-- C2 counterexample: draining by repeated `pop()` is *not* sorted for an
arbitrary configured comparator.  With the comparator that always answers
`1`, `[0, 0]` is a heap (every comparison is `>= 0`), yet the drained
sequence `[0, 0]` is not pairwise `<= 0` under that comparator. -/
theorem C2_pop_drain_counterexample :
    PriorityQueue.IsHeap (fun _ _ => (1 : Int)) [(0 : Int), 0] ∧
    PriorityQueue.drain (fun _ _ => (1 : Int)) [(0 : Int), 0] = [0, 0] ∧
    ¬ List.Pairwise (fun a b => (fun _ _ => (1 : Int)) a b ≤ 0)
        (PriorityQueue.drain (fun _ _ => (1 : Int)) [(0 : Int), 0]) := by
  have hd : PriorityQueue.drain (fun _ _ => (1 : Int)) [(0 : Int), 0] = [0, 0] := by
    simp [PriorityQueue.drain, PriorityQueue.drainAux, PriorityQueue.pop,
      PriorityQueue.bubbleDown, PriorityQueue.bdTarget, PriorityQueue.bdT1,
      nth, swap, parentIdx]
  refine ⟨?_, hd, ?_⟩
  · intro j hj0 hjlen
    simp at hjlen
    interval_cases j
    decide
  · rw [hd]
    intro h
    have := (List.pairwise_cons.mp h).1 0 (by simp)
    simp at this

/-- C2 (amended): for every sign-antisymmetric, transitive comparator and
every state satisfying the heap invariant, repeatedly calling `pop()` until
empty yields the elements in fully sorted order: each popped value compares
`<= 0` against every later-popped value. -/
theorem C2_pop_drains_sorted (α : Type) [Inhabited α] (cmp : α → α → Int)
    (hA : PriorityQueue.CmpAntisymm cmp) (hT : PriorityQueue.CmpTrans cmp)
    (l : List α) (hl : PriorityQueue.IsHeap cmp l) :
    List.Pairwise (fun a b => cmp a b ≤ 0) (PriorityQueue.drain cmp l) :=
  (PriorityQueue.drainAux_props cmp hA hT l.length l le_rfl hl).2

/-- Witness for the amended C2: the min-heap `[1, 5, 3]` drains in pairwise
non-decreasing order. -/
theorem C2_pop_drains_sorted_witness :
    List.Pairwise (fun a b => minComparator a b ≤ 0)
      (PriorityQueue.drain minComparator [(1 : Int), 5, 3]) := by
  have hA : PriorityQueue.CmpAntisymm minComparator := by
    intro a b
    unfold minComparator
    omega
  have hT : PriorityQueue.CmpTrans minComparator := by
    intro a b c h1 h2
    unfold minComparator at h1 h2 ⊢
    omega
  have hh : PriorityQueue.IsHeap minComparator [(1 : Int), 5, 3] := by
    intro j hj0 hjlen
    simp at hjlen
    interval_cases j <;> decide
  exact C2_pop_drains_sorted Int minComparator hA hT [1, 5, 3] hh

/-- C4: `remove(v)` on an absent value reports failure with no mutation; on
a present value it reports success, shrinks the size by exactly one, and
removes precisely the first matching backing-sequence position (the
surviving content is, as a multiset, the original minus that slot). -/
theorem C4_remove_first_match (α : Type) [Inhabited α] [DecidableEq α]
    (cmp : α → α → Int) (heap : List α) (v : α) :
    (v ∉ heap → PriorityQueue.remove cmp heap v = (false, heap)) ∧
    (v ∈ heap → ∃ idx, PriorityQueue.findIndex heap v = some idx ∧
      idx < heap.length ∧ nth heap idx = v ∧
      (∀ k, k < idx → nth heap k ≠ v) ∧
      (PriorityQueue.remove cmp heap v).1 = true ∧
      (PriorityQueue.remove cmp heap v).2.length + 1 = heap.length ∧
      (PriorityQueue.remove cmp heap v).2.Perm (heap.eraseIdx idx)) :=
  PriorityQueue.remove_spec cmp heap v

/-- Witness for C4: removing the absent `7` from `[1, 5, 3]` fails and
mutates nothing; removing the present `5` succeeds and shrinks the size
from 3 to 2. -/
theorem C4_remove_first_match_witness :
    PriorityQueue.remove minComparator [(1 : Int), 5, 3] 7 = (false, [1, 5, 3]) ∧
    (PriorityQueue.remove minComparator [(1 : Int), 5, 3] 5).1 = true ∧
    (PriorityQueue.remove minComparator [(1 : Int), 5, 3] 5).2.length + 1 = 3 := by
  obtain ⟨idx, _, _, _, _, h1, h2, _⟩ :=
    (C4_remove_first_match Int minComparator [1, 5, 3] 5).2 (by decide)
  exact ⟨(C4_remove_first_match Int minComparator [1, 5, 3] 7).1 (by decide),
    h1, h2⟩

/-- C5: `pushPop(v)` returns `v` with the heap untouched exactly when the
queue is empty or `compare(v, root) < 0`; in every other case its result —
returned value and resulting heap — is that of `replace(v)`. -/
theorem C5_pushPop_delegates (α : Type) [Inhabited α] (cmp : α → α → Int)
    (heap : List α) (v : α) :
    ((heap.length = 0 ∨ cmp v (nth heap 0) < 0) →
      PriorityQueue.pushPop cmp heap v = (some v, heap)) ∧
    (¬(heap.length = 0 ∨ cmp v (nth heap 0) < 0) →
      PriorityQueue.pushPop cmp heap v = PriorityQueue.replace cmp heap v) := by
  constructor
  · intro h
    unfold PriorityQueue.pushPop
    rw [if_pos h]
  · intro h
    unfold PriorityQueue.pushPop
    rw [if_neg h]

/-- Witness for C5 on the min-heap `[3, 5]`: pushing `1` (outranks the
root) returns `1` unchanged, pushing `4` delegates to `replace`. -/
theorem C5_pushPop_delegates_witness :
    PriorityQueue.pushPop minComparator [(3 : Int), 5] 1 = (some 1, [3, 5]) ∧
    PriorityQueue.pushPop minComparator [(3 : Int), 5] 4
      = PriorityQueue.replace minComparator [(3 : Int), 5] 4 := by
  constructor
  · exact (C5_pushPop_delegates Int minComparator [3, 5] 1).1
      (Or.inr (by decide))
  · exact (C5_pushPop_delegates Int minComparator [3, 5] 4).2 (by decide)

/-- C10 counterexample: as frozen the claim omits that `v` itself must be
absent.  With the parity comparator, the heap `[5, 7]` contains `w = 7`,
`v = 5` is distinct from `w` and comparator-equal to it, yet `contains(5)`
answers `true` because `5` happens to sit elsewhere in the array. -/
theorem C10_identity_matching_counterexample :
    PriorityQueue.IsHeap (fun a b : Int => a % 2 - b % 2) [(5 : Int), 7] ∧
    (7 : Int) ∈ [(5 : Int), 7] ∧ (5 : Int) ≠ (7 : Int) ∧
    (fun a b : Int => a % 2 - b % 2) 5 7 = 0 ∧
    PriorityQueue.contains [(5 : Int), 7] 5 = true := by
  refine ⟨?_, by decide, by decide, by decide, by decide⟩
  intro j hj0 hjlen
  simp at hjlen
  interval_cases j <;> decide

/-- C10 (amended): `contains(v)` and `remove(v)` match by value identity,
not comparator equivalence: whenever `v` occurs nowhere in the backing
sequence — even if it is comparator-equal to some distinct resident `w` —
`contains(v)` is `false` and `remove(v)` fails leaving the heap unchanged. -/
theorem C10_identity_matching (α : Type) [Inhabited α] [DecidableEq α]
    (cmp : α → α → Int) (heap : List α) (v w : α) (hw : w ∈ heap)
    (hvw : v ≠ w) (h0 : cmp v w = 0) (hv : v ∉ heap) :
    PriorityQueue.contains heap v = false ∧
    PriorityQueue.remove cmp heap v = (false, heap) := by
  constructor
  · unfold PriorityQueue.contains
    simpa using hv
  · exact (PriorityQueue.remove_spec cmp heap v).1 hv

/-- Witness for the amended C10: `9` is absent from `[5, 7]` but
parity-comparator-equal to the resident `7`; both lookups report absence. -/
theorem C10_identity_matching_witness :
    PriorityQueue.contains [(5 : Int), 7] 9 = false ∧
    PriorityQueue.remove (fun a b : Int => a % 2 - b % 2) [(5 : Int), 7] 9
      = (false, [5, 7]) :=
  C10_identity_matching Int (fun a b : Int => a % 2 - b % 2) [5, 7] 9 7
    (by decide) (by decide) (by decide) (by decide)
